import Mathlib

/-!
Verification of the AVL-tree implementation in `AVL_tree.py`.

The Python source keeps a mutable `Node` structure with `left`, `right`,
`data` and `parent` fields.  We model the tree shape functionally: the
inductive `Tree` below has a `leaf` constructor standing for an absent child
(Python `None` in a `left`/`right` slot) and a `node` constructor for a real
`Node`.  Parent pointers are representable from the shape alone, except in the
claims that are specifically about parent-pointer consistency; those are
settled on a separate pointer-heap model (`PN`/`Heap` further below) that
mirrors the Python object graph field by field.

The source file is an exercise skeleton: `Node.get_height`, `Node.unbalanced`,
the four rotation sequences inside `Node.balance`, the tail ends of
`Node.rebalance_insert` / `Node.rebalance_delete`, and the calls from
`Node.insert` / `Node.delete` into the rebalance walks are unimplemented
(literal `...` bodies / unfinished numbered TODO items).  Definitions covering
those parts are modelled from the spec and say so in their doc comments;
everything else is translated from the implemented Python code.
-/

namespace AvlSpec

/-- Binary tree of integer-valued nodes.  `leaf` stands for an absent child
(`None` in a `left`/`right` slot of `Node`); `node l d r` is a `Node` with
`left = l`, `data = d`, `right = r`. -/
inductive Tree where
  | leaf : Tree
  | node : Tree → Int → Tree → Tree
deriving DecidableEq, Repr

open Tree

/-- Modelled from the spec: `Node.get_height` has an unimplemented (`...`)
body in the source.  The spec defines `height(absent) = 0` and
`height(node) = 1 + max(height(left), height(right))`. -/
def height : Tree → Nat
  | leaf => 0
  | node l _ r => 1 + max (height l) (height r)

/-- Modelled from the spec: `Node.unbalanced` has an unimplemented (`...`)
body in the source.  The spec glossary defines a node as unbalanced when its
balance factor (left height minus right height) has absolute value greater
than 1. -/
def unbalanced : Tree → Bool
  | leaf => false
  | node l _ r => decide (height r + 1 < height l ∨ height l + 1 < height r)

/-- Every node of the tree satisfies the AVL balance condition
`|height(left) - height(right)| ≤ 1`. -/
def avl : Tree → Bool
  | leaf => true
  | node l _ r =>
    avl l && avl r && decide (height l ≤ height r + 1 ∧ height r ≤ height l + 1)

/-- `Node.rotate_left`: requires `self.right` to be present (the source raises
`ValueError` otherwise, modelled by `none`); the right child is promoted, the
old root becomes its left child and keeps the right child's former left
subtree as its own right subtree. -/
def rotateLeft : Tree → Option Tree
  | node l d (node rl rd rr) => some (node (node l d rl) rd rr)
  | _ => none

/-- `Node.rotate_right`: requires `self.left` to be present (the source raises
`ValueError` otherwise, modelled by `none`); mirror image of `rotateLeft`. -/
def rotateRight : Tree → Option Tree
  | node (node ll ld lr) d r => some (node ll ld (node lr d r))
  | _ => none

/-- In-order traversal (`Node.in_order_traverse`). -/
def inorder : Tree → List Int
  | leaf => []
  | node l d r => inorder l ++ d :: inorder r

/-- The `left` attribute of a node (`none` when called on an absent node,
which in Python would be an attribute error and never happens in the
call sites we model). -/
def leftOf : Tree → Option Tree
  | leaf => none
  | node l _ _ => some l

/-- The `right` attribute of a node. -/
def rightOf : Tree → Option Tree
  | leaf => none
  | node _ _ r => some r

/-- The `RestructuringCase` enumeration of the source. -/
inductive RCase where
  | Balanced : RCase
  | LeftLeft : RCase
  | LeftRight : RCase
  | RightLeft : RCase
  | RightRight : RCase
deriving DecidableEq, Repr

/-- `RestructuringCase.determine_case`: given nodes `x`, `y`, `z` with
`x.parent = y` and `y.parent = z`, returns the restructuring case.  Python
compares nodes with `==`, which for `Node` (no `__eq__`) is object identity;
in the functional model this is tree equality, which coincides with identity
at every call site we prove about (the compared trees are sibling subtrees of
distinct heights, or the very same subtree). -/
def determineCase (x y z : Tree) : RCase :=
  if ¬ (unbalanced z = true) then RCase.Balanced
  else if leftOf z = some y then
    (if leftOf y = some x then RCase.LeftLeft else RCase.LeftRight)
  else
    (if rightOf y = some x then RCase.RightRight else RCase.RightLeft)

/-- `Node.get_highest_child`: the child with the greater height; ties go to
the right child (`if left_height > right_height: left else: right`).  `none`
models the `ValueError` raised when the node has no children. -/
def highestChild : Tree → Option Tree
  | leaf => none
  | node l _ r =>
    if l = leaf ∧ r = leaf then none
    else if l = leaf then some r
    else if r = leaf then some l
    else if height r < height l then some l else some r

/-- `Node.balance`: the dispatch on `determine_case` is translated from the
source; the rotation sequence in each branch is an unimplemented (`...`) body
there and is modelled from the spec §4.5: LeftLeft → `rotate_right(z)`,
RightRight → `rotate_left(z)`, LeftRight → `rotate_left(y)` then
`rotate_right(z)`, RightLeft → `rotate_right(y)` then `rotate_left(z)`.
In the double-rotation cases `y` is the corresponding child of `z` (that is
what the classified case asserts), so rotating `y` in place is rebuilding `z`
with that child rotated.  The applied case is returned alongside the tree so
that scenario claims can observe which restructuring was triggered. -/
def balance (x y z : Tree) : Option (Tree × RCase) :=
  match determineCase x y z with
  | RCase.Balanced => some (z, RCase.Balanced)
  | RCase.LeftLeft =>
    match rotateRight z with
    | none => none
    | some t => some (t, RCase.LeftLeft)
  | RCase.LeftRight =>
    match z with
    | leaf => none
    | node zl zd zr =>
      match rotateLeft zl with
      | none => none
      | some y2 =>
        match rotateRight (node y2 zd zr) with
        | none => none
        | some t => some (t, RCase.LeftRight)
  | RCase.RightRight =>
    match rotateLeft z with
    | none => none
    | some t => some (t, RCase.RightRight)
  | RCase.RightLeft =>
    match z with
    | leaf => none
    | node zl zd zr =>
      match rotateRight zr with
      | none => none
      | some y2 =>
        match rotateLeft (node zl zd y2) with
        | none => none
        | some t => some (t, RCase.RightLeft)

/-- A direction to a child. -/
inductive Side where
  | l : Side
  | r : Side
deriving DecidableEq, Repr

/-- The child of a node in the given direction. -/
def childAt : Side → Tree → Option Tree
  | _, leaf => none
  | Side.l, node l _ _ => some l
  | Side.r, node _ _ r => some r

/-- Bookkeeping carried up the insertion path by `insAux`:
`fresh` marks the newly created node, `path s` a node through which the
insertion descended into direction `s` with no restructuring performed yet,
`fixed c` that the single restructuring (case `c`) has been applied below. -/
inductive InsInfo where
  | fresh : InsInfo
  | path : Side → InsInfo
  | fixed : RCase → InsInfo
deriving DecidableEq, Repr

/-- Modelled from the spec: the structural part (descent by `<`/`>`, sentinel
and duplicate handling, leaf creation) is `Node.insert` from the source, but
the source never calls `rebalance_insert` (the numbered TODO `4)` is
unfinished) and `rebalance_insert` itself ends in `...`.  This function
therefore also performs the rebalance-after-insert walk of spec §4.2: walking
back up from the new node, the first ancestor `z` that is unbalanced — it is
at least the grandparent, because the walk starts from the triple
`(x, y = x.parent, z = y.parent)` — is restructured via `balance x y z`,
where `y` is `z`'s child on the insertion path and `x` is `y`'s child on the
insertion path, and no further restructuring is performed above (spec §4.2
step 4).  `none` models the `ValueError` for a duplicate (and the unreachable
failure of a rotation inside `balance`). -/
def insAux : Tree → Int → Option (Tree × InsInfo)
  | leaf, v => some (node leaf v leaf, InsInfo.fresh)
  | node l d r, v =>
    if v < d then
      match insAux l v with
      | none => none
      | some (l2, InsInfo.fixed c) => some (node l2 d r, InsInfo.fixed c)
      | some (l2, InsInfo.fresh) => some (node l2 d r, InsInfo.path Side.l)
      | some (l2, InsInfo.path s) =>
        if unbalanced (node l2 d r) then
          match childAt s l2 with
          | none => none
          | some x =>
            match balance x l2 (node l2 d r) with
            | none => none
            | some (t2, c) => some (t2, InsInfo.fixed c)
        else some (node l2 d r, InsInfo.path Side.l)
    else if d < v then
      match insAux r v with
      | none => none
      | some (r2, InsInfo.fixed c) => some (node l d r2, InsInfo.fixed c)
      | some (r2, InsInfo.fresh) => some (node l d r2, InsInfo.path Side.r)
      | some (r2, InsInfo.path s) =>
        if unbalanced (node l d r2) then
          match childAt s r2 with
          | none => none
          | some x =>
            match balance x r2 (node l d r2) with
            | none => none
            | some (t2, c) => some (t2, InsInfo.fixed c)
        else some (node l d r2, InsInfo.path Side.r)
    else none

/-- The side toward which the examined node `z` is moved down by the
restructuring of the given case: a left-heavy fix (`LeftLeft`/`LeftRight`)
places the subtree that was `z`'s right child under the new right child, a
right-heavy fix is the mirror image.  (`Balanced` never reaches a
restructuring; the value is irrelevant there.) -/
def caseSide : RCase → Side
  | RCase.LeftLeft => Side.r
  | RCase.LeftRight => Side.r
  | _ => Side.l

/-- Modelled from the spec: one check of the rebalance-after-delete walk at
the node currently under consideration.  `rebalance_delete` in the source
implements the upward skip over balanced ancestors and selects
`y = z.get_highest_child()`, `x = y.get_highest_child()` (that part is
translated here), but the restructuring bodies and the continuation of the
walk end in `...`; per spec §4.3 the walk fixes `z` via `balance` and
continues upward, and per the spec's step 2 the children `y`, `x` are
selected when an unbalanced `z` is found.

The second component threads the path (from the current subtree's root) to
the parent of the physically removed node, so that claims about "ancestors of
the deletion point" can be stated: when this node is restructured it moves
toward `caseSide c`, and the subtree holding the deletion point (which hangs
on the deletion side, i.e. on `caseSide c`) moves from depth 1 to depth 2 on
that same side — therefore the path gains one `caseSide c` step in front,
as can be read off `rotateLeft`/`rotateRight`. -/
def delFixP (t : Tree) (p : List Side) : Option (Tree × List Side) :=
  if unbalanced t then
    match highestChild t with
    | none => none
    | some y =>
      match highestChild y with
      | none => none
      | some x =>
        match balance x y t with
        | none => none
        | some (t2, c) => some (t2, caseSide c :: p)
  else some (t, p)

/-- Removal of the in-order successor: the leftmost node of the subtree, as
walked by `__two_children_delete` (`once to the right, then all the way
left`), with its right child spliced into its parent's vacated `left` slot
(`successor.parent.left = successor.right`); on the way back up each ancestor
inside this subtree is a node of the rebalance-after-delete walk and receives
a `delFixP` check (spec-modelled continuation, see `delFixP`).  Returns the
successor's data, the updated subtree, and the path to the parent of the
removed node (`none` while that parent is the caller). -/
def delMin : Tree → Option (Int × Tree × Option (List Side))
  | leaf => none
  | node leaf d r => some (d, r, none)
  | node (node ll ld lr) d r =>
    match delMin (node ll ld lr) with
    | none => none
    | some (m, l2, po) =>
      match delFixP (node l2 d r)
          (match po with | none => ([] : List Side) | some q => Side.l :: q) with
      | none => none
      | some (t2, p2) => some (m, t2, some p2)

/-- Modelled from the spec for its rebalancing part: the structural behaviour
is `Node.delete` with its three private helpers, translated from the source:
descent by `lookup` (raising `ValueError`, modelled by `none`, when a needed
child is absent), then

* 0 children, non-root: the node is detached from its parent's child slot;
* 0 children, root (`isRoot = true`): the source runs `del self`, which only
  deletes the local binding — the node object, still referenced by the
  caller, is untouched, so the tree is returned unchanged;
* 1 child: `__one_child_delete` overwrites the node with the child's data and
  subtrees, so the child's content takes the node's position;
* 2 children: `__two_children_delete` copies the in-order successor's data
  into the node and splices the successor's right child into the successor's
  vacated slot (the structural effect of lines 145-159; the parent-pointer
  slip on line 159 has no effect on the left/right shape and is examined
  separately on the pointer-heap model).

The source's `delete` never invokes `rebalance_delete` (numbered TODO `4)` is
unfinished); per spec §4.3 the walk starts at the parent of the physically
removed node and continues to the root, so on the way back up every ancestor
applies `delFixP`.  The returned path points at the parent of the physically
removed node (`none` while that parent is the caller), as in `delMin`. -/
def delRec (isRoot : Bool) : Tree → Int → Option (Tree × Option (List Side))
  | leaf, _ => none
  | node l d r, v =>
    if v < d then
      match delRec false l v with
      | none => none
      | some (l2, po) =>
        match delFixP (node l2 d r)
            (match po with | none => ([] : List Side) | some q => Side.l :: q) with
        | none => none
        | some (t2, p2) => some (t2, some p2)
    else if d < v then
      match delRec false r v with
      | none => none
      | some (r2, po) =>
        match delFixP (node l d r2)
            (match po with | none => ([] : List Side) | some q => Side.r :: q) with
        | none => none
        | some (t2, p2) => some (t2, some p2)
    else
      match l, r with
      | leaf, leaf =>
        if isRoot then some (node leaf d leaf, some []) else some (leaf, none)
      | leaf, node cl cd cr =>
        match delFixP (node cl cd cr) [] with
        | none => none
        | some (t2, p2) => some (t2, some p2)
      | node cl cd cr, leaf =>
        match delFixP (node cl cd cr) [] with
        | none => none
        | some (t2, p2) => some (t2, some p2)
      | node al ad ar, node bl bd br =>
        match delMin (node bl bd br) with
        | none => none
        | some (m, r2, po) =>
          match delFixP (node (node al ad ar) m r2)
              (match po with | none => ([] : List Side) | some q => Side.r :: q) with
          | none => none
          | some (t2, p2) => some (t2, some p2)

/-- Top-level delete on the root, with the path to the parent of the
physically removed node. -/
def delAP (t : Tree) (v : Int) : Option (Tree × List Side) :=
  match delRec true t v with
  | none => none
  | some (t2, po) => some (t2, po.getD [])

/-- A mutation of the public API. -/
inductive Op where
  | ins : Int → Op
  | del : Int → Op
deriving DecidableEq, Repr

/-- One public operation applied to the tree held by the caller.  A raised
`ValueError` (`none`) leaves the caller's tree unchanged: for a duplicate
insert and a not-found delete the source raises before any mutation. -/
def step (t : Tree) : Op → Tree
  | Op.ins v => match insAux t v with | none => t | some (t2, _) => t2
  | Op.del v => match delRec true t v with | none => t | some (t2, _) => t2

/-- Run a sequence of operations starting from the empty tree (a fresh
sentinel root `Node(None)` in the source; `Tree.leaf` here — see `pyInsert`
below for the sentinel behaviour itself). -/
def runOps (ops : List Op) : Tree := ops.foldl step Tree.leaf

/-- Run a sequence of inserts starting from the empty tree. -/
def runInserts (vs : List Int) : Tree := runOps (vs.map Op.ins)

/-- Every node on the given path, including the tree's root and the path's
endpoint, is balanced, and the path denotes a real position of the tree. -/
def pathBalanced : Tree → List Side → Bool
  | t, [] => !unbalanced t
  | t, s :: p =>
    !unbalanced t &&
      (match childAt s t with
       | none => false
       | some c => pathBalanced c p)

/-- A Python `Node` object including the `data is None` sentinel state:
`nil` is an absent child slot, `nd l d r` a `Node` whose `data` is `d`
(`none` being the sentinel an empty tree's root starts with). -/
inductive PyTree where
  | nil : PyTree
  | nd : PyTree → Option Int → PyTree → PyTree
deriving DecidableEq, Repr

/-- `Node.insert`, translated clause by clause from the source (this method
is fully implemented there): a sentinel root stores the value in place; then
descent by `<` / `>`, creating a fresh leaf `Node` when the slot is absent;
a value equal to `self.data` raises
`ValueError("data is already present in the tree")`, modelled by
`Except.error` with the source's message. -/
def pyInsert : PyTree → Int → Except String PyTree
  | PyTree.nil, _ => Except.error "insert called on an absent node"
  | PyTree.nd l none r, v => Except.ok (PyTree.nd l (some v) r)
  | PyTree.nd l (some d) r, v =>
    if v < d then
      match l with
      | PyTree.nd a b c =>
        match pyInsert (PyTree.nd a b c) v with
        | Except.error e => Except.error e
        | Except.ok l2 => Except.ok (PyTree.nd l2 (some d) r)
      | PyTree.nil =>
        Except.ok (PyTree.nd (PyTree.nd PyTree.nil (some v) PyTree.nil) (some d) r)
    else if d < v then
      match r with
      | PyTree.nd a b c =>
        match pyInsert (PyTree.nd a b c) v with
        | Except.error e => Except.error e
        | Except.ok r2 => Except.ok (PyTree.nd l (some d) r2)
      | PyTree.nil =>
        Except.ok (PyTree.nd l (some d) (PyTree.nd PyTree.nil (some v) PyTree.nil))
    else Except.error "data is already present in the tree"

/-!
## Pointer-heap model

`Node.delete` and its helpers mutate `left`/`right`/`parent` fields of an
object graph; the claims about parent-pointer consistency are settled on this
model, which represents each `Node` as a record at a numeric address.  The
recursive walks (`lookup`, the successor walk, reachability) take a fuel
argument; all theorems on this model evaluate them on small concrete heaps,
where any fuel at least the node count is exact.
-/

/-- A Python `Node` object: `left`/`right`/`parent` hold addresses of other
nodes (or `none` for Python `None`), `data` the stored value. -/
structure PN where
  left : Option Nat
  right : Option Nat
  data : Int
  parent : Option Nat
deriving DecidableEq, Repr

/-- An object heap: addresses paired with node records. -/
abbrev Heap : Type := List (Nat × PN)

/-- The node stored at an address. -/
def getN (h : Heap) (i : Nat) : Option PN :=
  match List.find? (fun e => e.1 == i) h with
  | none => none
  | some e => some e.2

/-- Overwrite the node stored at an address. -/
def setN (h : Heap) (i : Nat) (n : PN) : Heap :=
  List.map (fun e => if e.1 == i then (i, n) else e) h

/-- `node.left = x`. -/
def setLeft (h : Heap) (i : Nat) (x : Option Nat) : Heap :=
  match getN h i with
  | none => h
  | some n => setN h i { n with left := x }

/-- `node.right = x`. -/
def setRight (h : Heap) (i : Nat) (x : Option Nat) : Heap :=
  match getN h i with
  | none => h
  | some n => setN h i { n with right := x }

/-- `node.parent = x`. -/
def setParent (h : Heap) (i : Nat) (x : Option Nat) : Heap :=
  match getN h i with
  | none => h
  | some n => setN h i { n with parent := x }

/-- `node.data = x`. -/
def setData (h : Heap) (i : Nat) (x : Int) : Heap :=
  match getN h i with
  | none => h
  | some n => setN h i { n with data := x }

/-- `Node.lookup`, translated from the source: descend by `<` / `>`; raises
`ValueError` (modelled by `none`) when the needed child is absent; returns
the address of the node holding the value. -/
def lookupN : Nat → Heap → Nat → Int → Option Nat
  | 0, _, _, _ => none
  | fuel + 1, h, i, v =>
    match getN h i with
    | none => none
    | some n =>
      if v < n.data then
        match n.left with
        | none => none
        | some j => lookupN fuel h j v
      else if n.data < v then
        match n.right with
        | none => none
        | some j => lookupN fuel h j v
      else some i

/-- `Node.children_count`. -/
def childrenCount (n : PN) : Nat :=
  (if n.left.isSome then 1 else 0) + (if n.right.isSome then 1 else 0)

/-- `Node.__no_children_delete`, translated from the source.  When the node
has no parent the source runs `del self`, which only removes the local
binding `self` — the object stays in the heap and in every structure that
references it, so the heap is returned unchanged.  Otherwise the parent's
corresponding child slot is cleared. -/
def noChildrenDelete (h : Heap) (i : Nat) : Heap :=
  match getN h i with
  | none => h
  | some n =>
    match n.parent with
    | none => h
    | some pi =>
      match getN h pi with
      | none => h
      | some pn =>
        if pn.left = some i then setLeft h pi none else setRight h pi none

/-- `Node.__replace` (used via `__replace_with_node`): overwrite this node's
`left`, `right` and `data`, re-pointing the new children's `parent` fields at
this node. -/
def replaceN (h : Heap) (i : Nat) (d : Int) (l r : Option Nat) : Heap :=
  let h1 := setLeft h i l
  let h2 := match l with | none => h1 | some j => setParent h1 j (some i)
  let h3 := setRight h2 i r
  let h4 := match r with | none => h3 | some j => setParent h3 j (some i)
  setData h4 i d

/-- `Node.__one_child_delete`: replace the node with its sole child's
content. -/
def oneChildDelete (h : Heap) (i : Nat) : Heap :=
  match getN h i with
  | none => h
  | some n =>
    match (match n.left with | some j => some j | none => n.right) with
    | none => h
    | some ci =>
      match getN h ci with
      | none => h
      | some cn => replaceN h i cn.data cn.left cn.right

/-- The `while successor.left is not None` walk of
`Node.__two_children_delete`. -/
def succWalk : Nat → Heap → Nat → Nat
  | 0, _, j => j
  | fuel + 1, h, j =>
    match getN h j with
    | none => j
    | some n =>
      match n.left with
      | none => j
      | some k => succWalk fuel h k

/-- `Node.__two_children_delete`, translated statement by statement from the
source (lines 140-159): find the successor (right once, then leftmost), copy
its data into this node; if the successor is this node's direct child, take
over its right child (updating that child's `parent`); otherwise run
`successor.parent.left = successor.right` and then the source's line 159,
`successor.parent.left.parent = successor.right` — which assigns the moved
node's `parent` field the successor's right child (i.e. the moved node
itself) where `successor.parent` was evidently intended. -/
def twoChildrenDelete (h : Heap) (i : Nat) : Heap :=
  match getN h i with
  | none => h
  | some n =>
    match n.right with
    | none => h
    | some r0 =>
      let s := succWalk 1000 h r0
      match getN h s with
      | none => h
      | some sn =>
        let h1 := setData h i sn.data
        if sn.parent = some i then
          let h2 := setRight h1 i sn.right
          match sn.right with
          | none => h2
          | some sr => setParent h2 sr (some i)
        else
          match sn.parent with
          | none => h1
          | some sp =>
            let h2 := setLeft h1 sp sn.right
            match sn.right with
            | none => h2
            | some sr => setParent h2 sr sn.right

/-- `Node.delete`, translated from the source: look the value up (raising
`ValueError`, modelled by `none`, when absent), then dispatch on the child
count.  The source's `delete` performs no rebalancing (the TODO hooking in
`rebalance_delete` is unfinished); the parent-consistency claims are about
the structural edit itself. -/
def deleteH (h : Heap) (root : Nat) (v : Int) : Option Heap :=
  match lookupN 1000 h root v with
  | none => none
  | some i =>
    match getN h i with
    | none => none
    | some n =>
      match childrenCount n with
      | 0 => some (noChildrenDelete h i)
      | 1 => some (oneChildDelete h i)
      | _ => some (twoChildrenDelete h i)

/-- Addresses reachable from the given address through `left`/`right`
links. -/
def reach : Nat → Heap → Nat → List Nat
  | 0, _, i => [i]
  | fuel + 1, h, i =>
    i ::
      ((match getN h i with
        | none => []
        | some n =>
          (match n.left with | none => [] | some j => reach fuel h j) ++
            (match n.right with | none => [] | some j => reach fuel h j)))

/-- Parent consistency over the structure reachable from `root`: whenever a
reachable node's `left` (resp. `right`) is present, that child's `parent`
field points back at the node. -/
def childLinksOK (h : Heap) (root : Nat) : Bool :=
  List.all (reach 1000 h root) (fun i =>
    match getN h i with
    | none => false
    | some n =>
      (match n.left with
       | none => true
       | some j =>
         match getN h j with
         | none => false
         | some c => c.parent = some i) &&
      (match n.right with
       | none => true
       | some j =>
         match getN h j with
         | none => false
         | some c => c.parent = some i))

/-- Read the tree shape rooted at an address out of the heap. -/
def toTree : Nat → Heap → Option Nat → Tree
  | 0, _, _ => Tree.leaf
  | _, _, none => Tree.leaf
  | fuel + 1, h, some i =>
    match getN h i with
    | none => Tree.leaf
    | some n => Tree.node (toTree fuel h n.left) n.data (toTree fuel h n.right)

/-- `x.parent == y` in the shape model: `x` is one of `y`'s children. -/
def isChildOf (x y : Tree) : Prop := leftOf y = some x ∨ rightOf y = some x

instance (x y : Tree) : Decidable (isChildOf x y) := by
  unfold isChildOf
  infer_instance

/-!
## Theorems
-/

theorem height_node (l : Tree) (d : Int) (r : Tree) :
    height (node l d r) = 1 + max (height l) (height r) := rfl

theorem height_leaf : height leaf = 0 := rfl

theorem avl_node {l r : Tree} {d : Int} :
    avl (node l d r) = true ↔
      (avl l = true ∧ avl r = true ∧
        height l ≤ height r + 1 ∧ height r ≤ height l + 1) := by
  simp [avl, Bool.and_eq_true, decide_eq_true_iff, and_assoc]

theorem unbalanced_true {l r : Tree} {d : Int} :
    unbalanced (node l d r) = true ↔
      (height r + 1 < height l ∨ height l + 1 < height r) := by
  simp [unbalanced, decide_eq_true_iff]

theorem unbalanced_false {l r : Tree} {d : Int} :
    unbalanced (node l d r) = false ↔
      (height l ≤ height r + 1 ∧ height r ≤ height l + 1) := by
  constructor
  · intro h
    have h2 : ¬ (height r + 1 < height l ∨ height l + 1 < height r) := by
      intro hc
      rw [(unbalanced_true (d := d)).mpr hc] at h
      cases h
    omega
  · intro h
    cases hu : unbalanced (node l d r) with
    | false => rfl
    | true =>
      rcases unbalanced_true.mp hu with h1 | h1 <;> omega

theorem ne_of_height_ne {s t : Tree} (h : height s ≠ height t) : s ≠ t :=
  fun e => h (by rw [e])

/-- Helper: a successful `rotate_left` preserves the in-order sequence. -/
theorem rotateLeft_inorder {t t2 : Tree} (h : rotateLeft t = some t2) :
    inorder t2 = inorder t := by
  cases t with
  | leaf => simp [rotateLeft] at h
  | node l d r =>
    cases r with
    | leaf => simp [rotateLeft] at h
    | node rl rd rr =>
      simp only [rotateLeft, Option.some.injEq] at h
      subst h
      simp [inorder, List.append_assoc]

/-- Helper: a successful `rotate_right` preserves the in-order sequence. -/
theorem rotateRight_inorder {t t2 : Tree} (h : rotateRight t = some t2) :
    inorder t2 = inorder t := by
  cases t with
  | leaf => simp [rotateRight] at h
  | node l d r =>
    cases l with
    | leaf => simp [rotateRight] at h
    | node ll ld lr =>
      simp only [rotateRight, Option.some.injEq] at h
      subst h
      simp [inorder, List.append_assoc]

/-- Computation of `balance` in a LeftLeft configuration: the spec's single
right rotation of `z`. -/
theorem balance_ll {a b r : Tree} {e d : Int}
    (hu : unbalanced (node (node a e b) d r) = true) :
    balance a (node a e b) (node (node a e b) d r) =
      some (node a e (node b d r), RCase.LeftLeft) := by
  simp [balance, determineCase, hu, rotateRight, leftOf]

/-- Computation of `balance` in a LeftRight configuration (`x` is `y`'s
right child, distinct from the left child): `rotate_left(y)` then
`rotate_right(z)`. -/
theorem balance_lr {a p q r : Tree} {e f d : Int}
    (hne : a ≠ node p f q)
    (hu : unbalanced (node (node a e (node p f q)) d r) = true) :
    balance (node p f q) (node a e (node p f q))
        (node (node a e (node p f q)) d r) =
      some (node (node a e p) f (node q d r), RCase.LeftRight) := by
  simp [balance, determineCase, hu, hne, rotateLeft, rotateRight, leftOf, rightOf]

/-- Computation of `balance` in a RightRight configuration (`y` is not `z`'s
left child, `x` is `y`'s right child): the spec's single left rotation of
`z`. -/
theorem balance_rr {l c g : Tree} {d f : Int}
    (hne : l ≠ node c f g)
    (hu : unbalanced (node l d (node c f g)) = true) :
    balance g (node c f g) (node l d (node c f g)) =
      some (node (node l d c) f g, RCase.RightRight) := by
  simp [balance, determineCase, hu, hne, rotateLeft, leftOf, rightOf]

/-- Computation of `balance` in a RightLeft configuration:
`rotate_right(y)` then `rotate_left(z)`. -/
theorem balance_rl {l p q g : Tree} {d m f : Int}
    (hne : l ≠ node (node p m q) f g) (hne2 : g ≠ node p m q)
    (hu : unbalanced (node l d (node (node p m q) f g)) = true) :
    balance (node p m q) (node (node p m q) f g)
        (node l d (node (node p m q) f g)) =
      some (node (node l d p) m (node q f g), RCase.RightLeft) := by
  simp [balance, determineCase, hu, hne, hne2, rotateLeft, rotateRight, leftOf,
    rightOf]

/-- `grewTo s t2` says the root of `t2` leans by exactly one toward side
`s` — after an insert that increased the subtree height, the insertion side
is the strictly taller one. -/
def grewTo : Side → Tree → Prop
  | _, leaf => False
  | Side.l, node l _ r => height l = height r + 1
  | Side.r, node l _ r => height r = height l + 1

/-- Height bookkeeping carried by the insert induction: a `fresh` result was
a leaf turned into a single node; a `fixed` result has the height it had
before the insert (the spec's restructuring restores the subtree height); a
`path s` result grew by at most one, and when it grew it leans toward the
insertion side `s`. -/
def insPost (t t2 : Tree) : InsInfo → Prop
  | InsInfo.fresh => t = leaf ∧ height t2 = 1
  | InsInfo.fixed _ => height t2 = height t
  | InsInfo.path s =>
    height t2 = height t ∨ (height t2 = height t + 1 ∧ grewTo s t2)

/-- Core of the amended claim C1: on an everywhere-balanced tree, a
(spec-modelled) insert with its rebalance walk returns an
everywhere-balanced tree, with the height bookkeeping of `insPost`. -/
theorem insAux_avl (t : Tree) (v : Int) :
    ∀ t2 i, avl t = true → insAux t v = some (t2, i) →
      avl t2 = true ∧ insPost t t2 i := by
  induction t with
  | leaf =>
    intro t2 i _ hins
    simp only [insAux, Option.some.injEq, Prod.mk.injEq] at hins
    obtain ⟨h1, h2⟩ := hins
    subst h1
    subst h2
    exact ⟨rfl, rfl, rfl⟩
  | node l d r ihl ihr =>
    intro t2 i havl hins
    rw [avl_node] at havl
    obtain ⟨hal, har, hb1, hb2⟩ := havl
    simp only [insAux] at hins
    by_cases hv : v < d
    · rw [if_pos hv] at hins
      rcases hl : insAux l v with _ | ⟨l2, il⟩ <;> rw [hl] at hins
      · cases hins
      rcases il with _ | s | c
      · -- child is the freshly created node: this node is its parent, no check
        simp only [Option.some.injEq, Prod.mk.injEq] at hins
        obtain ⟨h1, h2⟩ := hins
        subst h1
        subst h2
        obtain ⟨hA, hleaf, hh⟩ := ihl l2 InsInfo.fresh hal hl
        subst hleaf
        simp only [height] at hb1 hb2
        refine ⟨avl_node.mpr ⟨hA, har, by omega, by omega⟩, ?_⟩
        simp only [insPost, grewTo, height_node, hh, height]
        omega
      · -- child still on the path: this node is a walk candidate z
        obtain ⟨hA, hpost⟩ := ihl l2 (InsInfo.path s) hal hl
        dsimp only at hins
        by_cases hu : unbalanced (node l2 d r) = true
        · rw [if_pos hu] at hins
          have hgrow : height l2 = height l + 1 ∧ grewTo s l2 := by
            rcases hpost with heq | hg
            · exfalso
              rcases unbalanced_true.mp hu with hc | hc <;> omega
            · exact hg
          obtain ⟨hh2, hlean⟩ := hgrow
          have hunb : height r + 1 < height l2 := by
            rcases unbalanced_true.mp hu with hc | hc
            · exact hc
            · omega
          cases l2 with
          | leaf => simp [grewTo] at hlean
          | node a e b =>
            obtain ⟨hAa, hAb, hb3, hb4⟩ := avl_node.mp hA
            cases s with
            | l =>
              simp only [grewTo] at hlean
              simp only [childAt] at hins
              rw [balance_ll hu] at hins
              simp only [Option.some.injEq, Prod.mk.injEq] at hins
              obtain ⟨h1, h2⟩ := hins
              subst h1
              subst h2
              simp only [height_node] at hh2 hunb
              constructor
              · exact avl_node.mpr ⟨hAa,
                  avl_node.mpr ⟨hAb, har, by omega, by omega⟩,
                  by simp only [height_node]; omega,
                  by simp only [height_node]; omega⟩
              · simp only [insPost, height_node]
                omega
            | r =>
              simp only [grewTo] at hlean
              simp only [childAt] at hins
              cases b with
              | leaf =>
                exfalso
                simp only [height] at hlean
                omega
              | node p f q =>
                have hne : a ≠ node p f q :=
                  ne_of_height_ne (by omega)
                rw [balance_lr hne hu] at hins
                simp only [Option.some.injEq, Prod.mk.injEq] at hins
                obtain ⟨h1, h2⟩ := hins
                subst h1
                subst h2
                obtain ⟨hAp, hAq, hb5, hb6⟩ := avl_node.mp hAb
                simp only [height_node] at hh2 hunb hb3 hb4 hlean
                constructor
                · exact avl_node.mpr
                    ⟨avl_node.mpr ⟨hAa, hAp, by omega, by omega⟩,
                     avl_node.mpr ⟨hAq, har, by omega, by omega⟩,
                     by simp only [height_node]; omega,
                     by simp only [height_node]; omega⟩
                · simp only [insPost, height_node]
                  omega
        · rw [if_neg hu] at hins
          simp only [Option.some.injEq, Prod.mk.injEq] at hins
          obtain ⟨h1, h2⟩ := hins
          subst h1
          subst h2
          rw [Bool.not_eq_true] at hu
          obtain ⟨hc1, hc2⟩ := unbalanced_false.mp hu
          have hpost2 : height l2 = height l ∨ height l2 = height l + 1 := by
            rcases hpost with heq | hg
            · exact Or.inl heq
            · exact Or.inr hg.1
          refine ⟨avl_node.mpr ⟨hA, har, by omega, by omega⟩, ?_⟩
          simp only [insPost, grewTo, height_node]
          omega
      · -- a restructuring already happened below: just rebuild
        simp only [Option.some.injEq, Prod.mk.injEq] at hins
        obtain ⟨h1, h2⟩ := hins
        subst h1
        subst h2
        obtain ⟨hA, hh⟩ := ihl l2 (InsInfo.fixed c) hal hl
        simp only [insPost] at hh
        refine ⟨avl_node.mpr ⟨hA, har, by omega, by omega⟩, ?_⟩
        simp only [insPost, height_node, hh]
    · rw [if_neg hv] at hins
      by_cases hv2 : d < v
      · rw [if_pos hv2] at hins
        rcases hr : insAux r v with _ | ⟨r2, ir⟩ <;> rw [hr] at hins
        · cases hins
        rcases ir with _ | s | c
        · simp only [Option.some.injEq, Prod.mk.injEq] at hins
          obtain ⟨h1, h2⟩ := hins
          subst h1
          subst h2
          obtain ⟨hA, hleaf, hh⟩ := ihr r2 InsInfo.fresh har hr
          subst hleaf
          simp only [height] at hb1 hb2
          refine ⟨avl_node.mpr ⟨hal, hA, by omega, by omega⟩, ?_⟩
          simp only [insPost, grewTo, height_node, hh, height]
          omega
        · obtain ⟨hA, hpost⟩ := ihr r2 (InsInfo.path s) har hr
          dsimp only at hins
          by_cases hu : unbalanced (node l d r2) = true
          · rw [if_pos hu] at hins
            have hgrow : height r2 = height r + 1 ∧ grewTo s r2 := by
              rcases hpost with heq | hg
              · exfalso
                rcases unbalanced_true.mp hu with hc | hc <;> omega
              · exact hg
            obtain ⟨hh2, hlean⟩ := hgrow
            have hunb : height l + 1 < height r2 := by
              rcases unbalanced_true.mp hu with hc | hc
              · omega
              · exact hc
            cases r2 with
            | leaf => simp [grewTo] at hlean
            | node c2 f g =>
              obtain ⟨hAc, hAg, hb3, hb4⟩ := avl_node.mp hA
              cases s with
              | r =>
                simp only [grewTo] at hlean
                simp only [childAt] at hins
                have hne : l ≠ node c2 f g :=
                  ne_of_height_ne (by omega)
                rw [balance_rr hne hu] at hins
                simp only [Option.some.injEq, Prod.mk.injEq] at hins
                obtain ⟨h1, h2⟩ := hins
                subst h1
                subst h2
                simp only [height_node] at hh2 hunb
                constructor
                · exact avl_node.mpr
                    ⟨avl_node.mpr ⟨hal, hAc, by omega, by omega⟩, hAg,
                     by simp only [height_node]; omega,
                     by simp only [height_node]; omega⟩
                · simp only [insPost, height_node]
                  omega
              | l =>
                simp only [grewTo] at hlean
                simp only [childAt] at hins
                cases c2 with
                | leaf =>
                  exfalso
                  simp only [height] at hlean
                  omega
                | node p m q =>
                  have hne : l ≠ node (node p m q) f g :=
                    ne_of_height_ne (by omega)
                  have hne2 : g ≠ node p m q :=
                    ne_of_height_ne (by omega)
                  rw [balance_rl hne hne2 hu] at hins
                  simp only [Option.some.injEq, Prod.mk.injEq] at hins
                  obtain ⟨h1, h2⟩ := hins
                  subst h1
                  subst h2
                  obtain ⟨hAp, hAq, hb5, hb6⟩ := avl_node.mp hAc
                  simp only [height_node] at hh2 hunb hb3 hb4 hlean
                  constructor
                  · exact avl_node.mpr
                      ⟨avl_node.mpr ⟨hal, hAp, by omega, by omega⟩,
                       avl_node.mpr ⟨hAq, hAg, by omega, by omega⟩,
                       by simp only [height_node]; omega,
                       by simp only [height_node]; omega⟩
                  · simp only [insPost, height_node]
                    omega
          · rw [if_neg hu] at hins
            simp only [Option.some.injEq, Prod.mk.injEq] at hins
            obtain ⟨h1, h2⟩ := hins
            subst h1
            subst h2
            rw [Bool.not_eq_true] at hu
            obtain ⟨hc1, hc2⟩ := unbalanced_false.mp hu
            have hpost2 : height r2 = height r ∨ height r2 = height r + 1 := by
              rcases hpost with heq | hg
              · exact Or.inl heq
              · exact Or.inr hg.1
            refine ⟨avl_node.mpr ⟨hal, hA, by omega, by omega⟩, ?_⟩
            simp only [insPost, grewTo, height_node]
            omega
        · simp only [Option.some.injEq, Prod.mk.injEq] at hins
          obtain ⟨h1, h2⟩ := hins
          subst h1
          subst h2
          obtain ⟨hA, hh⟩ := ihr r2 (InsInfo.fixed c) har hr
          simp only [insPost] at hh
          refine ⟨avl_node.mpr ⟨hal, hA, by omega, by omega⟩, ?_⟩
          simp only [insPost, height_node, hh]
      · rw [if_neg hv2] at hins
        cases hins

/-- One public insert keeps every node balanced (a raised duplicate error
leaves the tree unchanged). -/
theorem insStep_avl {t : Tree} (h : avl t = true) (v : Int) :
    avl (step t (Op.ins v)) = true := by
  simp only [step]
  rcases hi : insAux t v with _ | ⟨t2, i⟩
  · exact h
  · exact (insAux_avl t v t2 i h hi).1

/-- Claim C1 as amended: after every insert of any insert-only operation
sequence run from the empty tree, every node satisfies the AVL balance
condition `|height(left) - height(right)| ≤ 1`. -/
theorem insert_sequences_stay_avl (vs : List Int) :
    avl (runInserts vs) = true := by
  suffices h : ∀ t, avl t = true → avl (List.foldl step t (vs.map Op.ins)) = true from
    h Tree.leaf rfl
  induction vs with
  | nil => intro t ht; exact ht
  | cons v vs ih =>
    intro t ht
    exact ih _ (insStep_avl ht v)

/-- Every value in the tree satisfies `p`. -/
def allT (p : Int → Prop) : Tree → Prop
  | leaf => True
  | node l d r => allT p l ∧ p d ∧ allT p r

/-- Binary-search-tree order: at every node, all values to the left are
smaller and all values to the right are greater. -/
def bst : Tree → Prop
  | leaf => True
  | node l d r => bst l ∧ bst r ∧ allT (· < d) l ∧ allT (d < ·) r

theorem allT_iff (p : Int → Prop) : ∀ t : Tree, allT p t ↔ ∀ x ∈ inorder t, p x
  | leaf => by simp [allT, inorder]
  | node l d r => by
    simp only [allT, inorder, List.mem_append, List.mem_cons, allT_iff p l,
      allT_iff p r]
    constructor
    · rintro ⟨hl, hd, hr⟩ x hx
      rcases hx with hx | rfl | hx
      · exact hl x hx
      · exact hd
      · exact hr x hx
    · intro h
      exact ⟨fun x hx => h x (Or.inl hx), h d (Or.inr (Or.inl rfl)),
        fun x hx => h x (Or.inr (Or.inr hx))⟩

/-- A tree is a binary search tree exactly when its in-order sequence is
strictly increasing. -/
theorem bst_iff_pairwise : ∀ t : Tree, bst t ↔ (inorder t).Pairwise (· < ·)
  | leaf => by simp [bst, inorder]
  | node l d r => by
    simp only [bst, inorder, List.pairwise_append, List.pairwise_cons,
      bst_iff_pairwise l, bst_iff_pairwise r, allT_iff]
    constructor
    · rintro ⟨hl, hr, hall, halr⟩
      refine ⟨hl, ⟨fun b hb => halr b hb, hr⟩, ?_⟩
      rintro a ha b hb
      rcases List.mem_cons.mp hb with rfl | hb
      · exact hall a ha
      · exact lt_trans (hall a ha) (halr b hb)
    · rintro ⟨hl, ⟨hd, hr⟩, hcross⟩
      exact ⟨hl, hr, fun a ha => hcross a ha d (List.mem_cons_self d _), hd⟩

/-- Helper: a successful `balance` call preserves the in-order sequence of
`z`'s subtree — it only composes the two in-order-preserving rotations. -/
theorem balance_inorder {x y z t2 : Tree} {c : RCase}
    (h : balance x y z = some (t2, c)) : inorder t2 = inorder z := by
  unfold balance at h
  cases hdc : determineCase x y z <;> rw [hdc] at h <;> dsimp only at h
  case Balanced =>
    simp only [Option.some.injEq, Prod.mk.injEq] at h
    rw [← h.1]
  case LeftLeft =>
    rcases hr : rotateRight z with _ | t3 <;> rw [hr] at h
    · cases h
    · simp only [Option.some.injEq, Prod.mk.injEq] at h
      obtain ⟨h1, _⟩ := h
      subst h1
      exact rotateRight_inorder hr
  case LeftRight =>
    cases z with
    | leaf => cases h
    | node zl zd zr =>
      dsimp only at h
      rcases hy : rotateLeft zl with _ | y2 <;> rw [hy] at h <;> dsimp only at h
      · cases h
      · rcases hr : rotateRight (node y2 zd zr) with _ | t3 <;> rw [hr] at h
        · cases h
        · simp only [Option.some.injEq, Prod.mk.injEq] at h
          obtain ⟨h1, _⟩ := h
          subst h1
          rw [rotateRight_inorder hr]
          simp only [inorder]
          rw [rotateLeft_inorder hy]
  case RightRight =>
    rcases hr : rotateLeft z with _ | t3 <;> rw [hr] at h
    · cases h
    · simp only [Option.some.injEq, Prod.mk.injEq] at h
      obtain ⟨h1, _⟩ := h
      subst h1
      exact rotateLeft_inorder hr
  case RightLeft =>
    cases z with
    | leaf => cases h
    | node zl zd zr =>
      dsimp only at h
      rcases hy : rotateRight zr with _ | y2 <;> rw [hy] at h <;> dsimp only at h
      · cases h
      · rcases hr : rotateLeft (node zl zd y2) with _ | t3 <;> rw [hr] at h
        · cases h
        · simp only [Option.some.injEq, Prod.mk.injEq] at h
          obtain ⟨h1, _⟩ := h
          subst h1
          rw [rotateLeft_inorder hr]
          simp only [inorder]
          rw [rotateRight_inorder hy]

/-- Core of claim C9: a (spec-modelled) insert preserves the
binary-search-tree order, and adds no value other than the inserted one. -/
theorem insAux_bst : ∀ (t : Tree) (v : Int) (t2 : Tree) (i : InsInfo),
    bst t → insAux t v = some (t2, i) →
    bst t2 ∧ ∀ x ∈ inorder t2, x ∈ inorder t ∨ x = v := by
  intro t v
  induction t with
  | leaf =>
    intro t2 i _ hins
    simp only [insAux, Option.some.injEq, Prod.mk.injEq] at hins
    obtain ⟨h1, _⟩ := hins
    subst h1
    constructor
    · exact ⟨trivial, trivial, trivial, trivial⟩
    · simp [inorder]
  | node l d r ihl ihr =>
    intro t2 i hbst hins
    obtain ⟨hbl, hbr, hall, halr⟩ := hbst
    simp only [insAux] at hins
    by_cases hv : v < d
    · rw [if_pos hv] at hins
      rcases hl : insAux l v with _ | ⟨l2, il⟩ <;> rw [hl] at hins
      · cases hins
      have hstep : bst (node l2 d r) ∧
          ∀ x ∈ inorder (node l2 d r), x ∈ inorder (node l d r) ∨ x = v := by
        obtain ⟨hb2, hsub⟩ := ihl l2 il hbl hl
        have hall2 : allT (· < d) l2 := by
          rw [allT_iff]
          intro x hx
          rcases hsub x hx with hx2 | rfl
          · exact ((allT_iff _ l).mp hall) x hx2
          · exact hv
        refine ⟨⟨hb2, hbr, hall2, halr⟩, ?_⟩
        intro x hx
        simp only [inorder, List.mem_append, List.mem_cons] at hx ⊢
        rcases hx with hx | hx
        · rcases hsub x hx with hx2 | rfl
          · exact Or.inl (Or.inl hx2)
          · exact Or.inr rfl
        · exact Or.inl (Or.inr hx)
      rcases il with _ | s | c
      · simp only [Option.some.injEq, Prod.mk.injEq] at hins
        obtain ⟨h1, _⟩ := hins
        subst h1
        exact hstep
      · dsimp only at hins
        by_cases hu : unbalanced (node l2 d r) = true
        · rw [if_pos hu] at hins
          rcases hc : childAt s l2 with _ | x <;> rw [hc] at hins <;>
            dsimp only at hins
          · cases hins
          rcases hb : balance x l2 (node l2 d r) with _ | ⟨t3, c⟩ <;>
            rw [hb] at hins <;> dsimp only at hins
          · cases hins
          simp only [Option.some.injEq, Prod.mk.injEq] at hins
          obtain ⟨h1, _⟩ := hins
          subst h1
          have hio := balance_inorder hb
          constructor
          · rw [bst_iff_pairwise, hio, ← bst_iff_pairwise]
            exact hstep.1
          · intro x2 hx2
            rw [hio] at hx2
            exact hstep.2 x2 hx2
        · rw [if_neg hu] at hins
          simp only [Option.some.injEq, Prod.mk.injEq] at hins
          obtain ⟨h1, _⟩ := hins
          subst h1
          exact hstep
      · simp only [Option.some.injEq, Prod.mk.injEq] at hins
        obtain ⟨h1, _⟩ := hins
        subst h1
        exact hstep
    · rw [if_neg hv] at hins
      by_cases hv2 : d < v
      · rw [if_pos hv2] at hins
        rcases hr : insAux r v with _ | ⟨r2, ir⟩ <;> rw [hr] at hins
        · cases hins
        have hstep : bst (node l d r2) ∧
            ∀ x ∈ inorder (node l d r2), x ∈ inorder (node l d r) ∨ x = v := by
          obtain ⟨hb2, hsub⟩ := ihr r2 ir hbr hr
          have halr2 : allT (d < ·) r2 := by
            rw [allT_iff]
            intro x hx
            rcases hsub x hx with hx2 | rfl
            · exact ((allT_iff _ r).mp halr) x hx2
            · exact hv2
          refine ⟨⟨hbl, hb2, hall, halr2⟩, ?_⟩
          intro x hx
          simp only [inorder, List.mem_append, List.mem_cons] at hx ⊢
          rcases hx with hx | hx | hx
          · exact Or.inl (Or.inl hx)
          · exact Or.inl (Or.inr (Or.inl hx))
          · rcases hsub x hx with hx2 | rfl
            · exact Or.inl (Or.inr (Or.inr hx2))
            · exact Or.inr rfl
        rcases ir with _ | s | c
        · simp only [Option.some.injEq, Prod.mk.injEq] at hins
          obtain ⟨h1, _⟩ := hins
          subst h1
          exact hstep
        · dsimp only at hins
          by_cases hu : unbalanced (node l d r2) = true
          · rw [if_pos hu] at hins
            rcases hc : childAt s r2 with _ | x <;> rw [hc] at hins <;>
              dsimp only at hins
            · cases hins
            rcases hb : balance x r2 (node l d r2) with _ | ⟨t3, c⟩ <;>
              rw [hb] at hins <;> dsimp only at hins
            · cases hins
            simp only [Option.some.injEq, Prod.mk.injEq] at hins
            obtain ⟨h1, _⟩ := hins
            subst h1
            have hio := balance_inorder hb
            constructor
            · rw [bst_iff_pairwise, hio, ← bst_iff_pairwise]
              exact hstep.1
            · intro x2 hx2
              rw [hio] at hx2
              exact hstep.2 x2 hx2
          · rw [if_neg hu] at hins
            simp only [Option.some.injEq, Prod.mk.injEq] at hins
            obtain ⟨h1, _⟩ := hins
            subst h1
            exact hstep
        · simp only [Option.some.injEq, Prod.mk.injEq] at hins
          obtain ⟨h1, _⟩ := hins
          subst h1
          exact hstep
      · rw [if_neg hv2] at hins
        cases hins

/-- One public insert preserves the binary-search-tree order. -/
theorem insStep_bst {t : Tree} (h : bst t) (v : Int) : bst (step t (Op.ins v)) := by
  simp only [step]
  rcases hi : insAux t v with _ | ⟨t2, i⟩
  · exact h
  · exact (insAux_bst t v t2 i h hi).1

/-- Claim C9: for every sequence of inserts into the empty tree, the
in-order traversal of the resulting tree is strictly ascending. -/
theorem inorder_sorted_after_inserts (vs : List Int) :
    List.Chain' (· < ·) (inorder (runInserts vs)) := by
  have hb : ∀ t, bst t → bst (List.foldl step t (vs.map Op.ins)) := by
    induction vs with
    | nil => intro t ht; exact ht
    | cons v vs ih =>
      intro t ht
      exact ih _ (insStep_bst ht v)
  exact ((bst_iff_pairwise _).mp (hb Tree.leaf trivial)).chain'

/-- C2 (part of the run for the witness-style statement): the operation list
of the ascending-insert scenario. -/
def ascOps : List Int := [1, 2, 3]

/-- C2: inserting 1, 2, 3 in that order into an empty tree triggers a
RightRight restructuring on the third insert, and the result is the tree
with root 2, left child 1 and right child 3. -/
theorem insert_123_rightRight :
    insAux (runInserts [1, 2]) 3 =
      some (node (node leaf 1 leaf) 2 (node leaf 3 leaf),
        InsInfo.fixed RCase.RightRight) ∧
    runInserts ascOps = node (node leaf 1 leaf) 2 (node leaf 3 leaf) := by
  exact ⟨rfl, rfl⟩

/-- C6: for an ancestor triple `(x, y, z)` with `x.parent = y`,
`y.parent = z` and `z` unbalanced, `determine_case` returns LeftLeft iff
`z.left is y` and `y.left is x`; LeftRight iff `z.left is y` and `y.left`
is not `x`; RightRight iff `z.left` is not `y` and `y.right is x`; and
RightLeft otherwise. -/
theorem determineCase_classifies (x y z : Tree) (_hxy : isChildOf x y)
    (_hyz : isChildOf y z) (hz : unbalanced z = true) :
    (determineCase x y z = RCase.LeftLeft ↔
      (leftOf z = some y ∧ leftOf y = some x)) ∧
    (determineCase x y z = RCase.LeftRight ↔
      (leftOf z = some y ∧ ¬ leftOf y = some x)) ∧
    (determineCase x y z = RCase.RightRight ↔
      (¬ leftOf z = some y ∧ rightOf y = some x)) ∧
    (determineCase x y z = RCase.RightLeft ↔
      (¬ leftOf z = some y ∧ ¬ rightOf y = some x)) := by
  simp only [determineCase, hz]
  split_ifs with h1 h2 h3 <;> simp_all

/-- Witness for C6: the classifier theorem applied to the concrete
left-left chain `1 ← 2 ← 3`. -/
theorem determineCase_classifies_w :
    determineCase (node leaf 1 leaf) (node (node leaf 1 leaf) 2 leaf)
        (node (node (node leaf 1 leaf) 2 leaf) 3 leaf) = RCase.LeftLeft ↔
      (leftOf (node (node (node leaf 1 leaf) 2 leaf) 3 leaf) =
          some (node (node leaf 1 leaf) 2 leaf) ∧
        leftOf (node (node leaf 1 leaf) 2 leaf) = some (node leaf 1 leaf)) :=
  (determineCase_classifies (node leaf 1 leaf) (node (node leaf 1 leaf) 2 leaf)
    (node (node (node leaf 1 leaf) 2 leaf) 3 leaf)
    (by decide) (by decide) (by decide)).1

/-- C7: whenever a rotation succeeds, the in-order value sequence of the
affected subtree is unchanged, for both `rotate_left` and `rotate_right`. -/
theorem rotate_preserves_inorder (t t2 : Tree) :
    (rotateLeft t = some t2 → inorder t2 = inorder t) ∧
    (rotateRight t = some t2 → inorder t2 = inorder t) :=
  ⟨rotateLeft_inorder, rotateRight_inorder⟩

/-- Witness for C7: the in-order sequence `[1, 2]` survives the concrete
left rotation of `node leaf 1 (node leaf 2 leaf)`. -/
theorem rotate_preserves_inorder_w :
    inorder (node (node leaf 1 leaf) 2 leaf) =
      inorder (node leaf 1 (node leaf 2 leaf)) :=
  (rotate_preserves_inorder (node leaf 1 (node leaf 2 leaf))
    (node (node leaf 1 leaf) 2 leaf)).1 rfl

/-- C8: called on a node, `rotate_left` fails (raises, modelled by `none`)
exactly when the right child is absent, and `rotate_right` exactly when the
left child is absent; with the required child present the rotation
succeeds. -/
theorem rotate_fails_iff (l : Tree) (d : Int) (r : Tree) :
    (rotateLeft (node l d r) = none ↔ r = leaf) ∧
    (rotateRight (node l d r) = none ↔ l = leaf) := by
  constructor
  · cases r <;> simp [rotateLeft]
  · cases l <;> simp [rotateRight]

/-- C10: inserting a value `v` into an empty tree — a root `Node` whose
`data` is the `None` sentinel — stores `v` in that node in place, creating
no child and raising no error; inserting the same value again raises the
duplicate `ValueError`. -/
theorem insert_sentinel_in_place (v : Int) :
    pyInsert (PyTree.nd PyTree.nil none PyTree.nil) v =
      Except.ok (PyTree.nd PyTree.nil (some v) PyTree.nil) ∧
    pyInsert (PyTree.nd PyTree.nil (some v) PyTree.nil) v =
      Except.error "data is already present in the tree" := by
  refine ⟨rfl, ?_⟩
  rw [pyInsert, if_neg (lt_irrefl v), if_neg (lt_irrefl v)]

/-- The operation sequence refuting claim C1: nine inserts building a
balanced tree, then one delete whose rebalance walk meets a height tie and
applies a double rotation where only the single rotation restores balance. -/
def badOps : List Op :=
  [Op.ins 10, Op.ins 5, Op.ins 15, Op.ins 3, Op.ins 8, Op.ins 20,
   Op.ins 2, Op.ins 4, Op.ins 9, Op.del 20]

/-- Counterexample to C1: after the nine inserts every node is balanced, but
after `delete(20)` completes the node holding 5 has a left subtree of height
2 and an absent right child, violating the AVL balance condition. -/
theorem avl_broken_after_delete :
    avl (runInserts [10, 5, 15, 3, 8, 20, 2, 4, 9]) = true ∧
    avl (runOps badOps) = false ∧
    runOps badOps =
      node
        (node (node (node leaf 2 leaf) 3 (node leaf 4 leaf)) 5 leaf)
        8
        (node (node leaf 9 leaf) 10 (node leaf 15 leaf)) := by
  exact ⟨rfl, rfl, rfl⟩

/-- The concrete heap refuting claim C3: the AVL tree
`10 (5 (3, 7), 20 (15 (-, 17), 30))` laid out at addresses 0-7. -/
def heapC3 : Heap :=
  [(0, ⟨some 1, some 2, 10, none⟩),
   (1, ⟨some 3, some 4, 5, some 0⟩),
   (2, ⟨some 5, some 6, 20, some 0⟩),
   (3, ⟨none, none, 3, some 1⟩),
   (4, ⟨none, none, 7, some 1⟩),
   (5, ⟨none, some 7, 15, some 2⟩),
   (6, ⟨none, none, 30, some 2⟩),
   (7, ⟨none, none, 17, some 5⟩)]

/-- C3 (code bug): `heapC3` satisfies the invariants (parent consistency,
AVL balance, strictly ascending in-order sequence), `10` is present with two
children, and its in-order successor `15` is not a direct child of the
deleted node; after `delete(10)` completes, parent consistency is broken:
the node holding 17 was moved into the left slot of the node holding 20, but
its `parent` field was made to point at itself (line 159 of the source
assigns `successor.parent.left.parent = successor.right`). -/
theorem delete_breaks_parent_pointer :
    childLinksOK heapC3 0 = true ∧
    avl (toTree 100 heapC3 (some 0)) = true ∧
    inorder (toTree 100 heapC3 (some 0)) = [3, 5, 7, 10, 15, 17, 20, 30] ∧
    List.Chain' (· < ·) ([3, 5, 7, 10, 15, 17, 20, 30] : List Int) ∧
    (deleteH heapC3 0 10).map (fun h2 => childLinksOK h2 0) = some false ∧
    (deleteH heapC3 0 10).bind (fun h2 => getN h2 2) =
      some ⟨some 7, some 6, 20, some 0⟩ ∧
    (deleteH heapC3 0 10).bind (fun h2 => getN h2 7) =
      some ⟨none, none, 17, some 7⟩ := by
  refine ⟨rfl, rfl, rfl, by norm_num [List.chain'_cons], rfl, rfl, rfl⟩

/-- A heap holding the single root node `5`. -/
def heapOne : Heap := [(0, ⟨none, none, 5, none⟩)]

/-- A heap holding root `5` with single (left) child `3`. -/
def heapTwo : Heap := [(0, ⟨some 1, none, 5, none⟩), (1, ⟨none, none, 3, some 0⟩)]

/-- C5 (code bug): deleting a childless non-root node detaches it from its
parent's child slot (root of `heapTwo` ends with `left = None`), but
deleting the childless *root* leaves the tree unchanged instead of empty:
`__no_children_delete` runs `del self`, which deletes only the local
binding, so after `delete(5)` on the single-node tree the root still holds
5 and `lookup(5)` still finds it. -/
theorem root_leaf_delete_no_op :
    deleteH heapTwo 0 3 =
      some [(0, ⟨none, none, 5, none⟩), (1, ⟨none, none, 3, some 0⟩)] ∧
    deleteH heapOne 0 5 = some heapOne ∧
    (deleteH heapOne 0 5).bind (fun h2 => lookupN 100 h2 0 5) = some 0 := by
  exact ⟨rfl, rfl, rfl⟩

/-!
## The rebalance-after-delete walk (claim C4)

The delete walk of spec §4.3 is proved to leave every ancestor of the
deletion point balanced.  The full AVL invariant is *not* restored in
general (see `avl_broken_after_delete`): a left-heavy check whose two
grandchild candidates are of equal height picks the right one
(`get_highest_child` breaks ties to the right) and therefore the double
rotation, which can leave an unbalanced node *off* the ancestor path.  The
lemmas below show that all nodes *on* the path to the removal parent come
out balanced in every case, and that each processed subtree loses at most
one level of height.
-/

theorem avl_not_unbalanced {t : Tree} (h : avl t = true) : unbalanced t = false := by
  cases t with
  | leaf => rfl
  | node l d r =>
    obtain ⟨_, _, h1, h2⟩ := avl_node.mp h
    exact unbalanced_false.mpr ⟨h1, h2⟩

theorem pathBalanced_nil {t : Tree} (h : unbalanced t = false) :
    pathBalanced t [] = true := by
  simp [pathBalanced, h]

theorem pathBalanced_cons {t c : Tree} {s : Side} {p : List Side}
    (hu : unbalanced t = false) (hc : childAt s t = some c)
    (hp : pathBalanced c p = true) : pathBalanced t (s :: p) = true := by
  simp [pathBalanced, hu, hc, hp]

/-- Computation of one delete-walk check when the node is unbalanced. -/
theorem delFixP_eq {t y x t3 : Tree} {c : RCase} (p : List Side)
    (hu : unbalanced t = true) (hy : highestChild t = some y)
    (hx : highestChild y = some x) (hb : balance x y t = some (t3, c)) :
    delFixP t p = some (t3, caseSide c :: p) := by
  simp only [delFixP]
  rw [if_pos hu, hy]
  dsimp only
  rw [hx]
  dsimp only
  rw [hb]

/-- Computation of one delete-walk check when the node is balanced. -/
theorem delFixP_skip {t : Tree} (p : List Side) (hu : unbalanced t = false) :
    delFixP t p = some (t, p) := by
  simp only [delFixP, hu]
  rw [if_neg (by simp)]

/-- One fixing check of the delete walk, left-heavy case: `z = node l d r`
where `l` is an untouched everywhere-balanced subtree sitting two levels
above `r` (the deletion side).  The check restructures `z`; the node now in
`z`'s position is balanced, the path continues through its right child into
`r` (gaining one `Side.r` step), every node on that path is balanced, and
the new subtree height is `height l` or `height l + 1`. -/
theorem delFixP_fix_left_heavy (l r : Tree) (d : Int) (p : List Side)
    (hAl : avl l = true) (hh : height l = height r + 2)
    (hp : p = [] ∨ ∃ q, p = Side.r :: q)
    (hpb : ∀ q, p = Side.r :: q → pathBalanced r q = true) :
    ∃ t2, delFixP (node l d r) p = some (t2, Side.r :: p) ∧
      pathBalanced t2 (Side.r :: p) = true ∧
      (height t2 = height l ∨ height t2 = height l + 1) := by
  have hrtail : ∀ inner : Tree, unbalanced inner = false →
      childAt Side.r inner = some r →
      ∀ root : Tree, unbalanced root = false → childAt Side.r root = some inner →
      pathBalanced root (Side.r :: p) = true := by
    intro inner hiu hic root hru hrc
    refine pathBalanced_cons hru hrc ?_
    rcases hp with rfl | ⟨q, rfl⟩
    · exact pathBalanced_nil hiu
    · exact pathBalanced_cons hiu hic (hpb q rfl)
  cases l with
  | leaf => rw [show height leaf = 0 from rfl] at hh; omega
  | node a e b =>
  obtain ⟨hAa, hAb, hab1, hab2⟩ := avl_node.mp hAl
  have hu : unbalanced (node (node a e b) d r) = true :=
    unbalanced_true.mpr (Or.inl (by omega))
  have hy : highestChild (node (node a e b) d r) = some (node a e b) := by
    cases r with
    | leaf => simp [highestChild]
    | node rl rd rr =>
      simp only [highestChild]
      rw [if_neg (by simp), if_neg (by simp), if_neg (by simp), if_pos (by omega)]
  cases a with
  | leaf =>
    cases b with
    | leaf => simp only [height_node, height_leaf] at hh; omega
    | node b1 b2 b3 =>
      -- the only grandchild of positive height is on the right: LeftRight
      have hx : highestChild (node leaf e (node b1 b2 b3)) =
          some (node b1 b2 b3) := by
        simp [highestChild]
      have hb := balance_lr (by simp) hu
      obtain ⟨hAb1, hAb3, hbb1, hbb2⟩ := avl_node.mp hAb
      refine ⟨node (node leaf e b1) b2 (node b3 d r),
        delFixP_eq p hu hy hx hb, ?_, ?_⟩
      · refine hrtail (node b3 d r) ?_ (by simp [childAt]) _ ?_ (by simp [childAt])
        · refine unbalanced_false.mpr ⟨?_, ?_⟩ <;>
            · simp only [height_node, height_leaf] at *
              omega
        · refine unbalanced_false.mpr ⟨?_, ?_⟩ <;>
            · simp only [height_node, height_leaf] at *
              omega
      · simp only [height_node, height_leaf] at *
        omega
  | node a1 a2 a3 =>
    cases b with
    | leaf =>
      -- the only grandchild of positive height is on the left: LeftLeft
      have hx : highestChild (node (node a1 a2 a3) e leaf) =
          some (node a1 a2 a3) := by
        simp [highestChild]
      have hb := balance_ll hu
      refine ⟨node (node a1 a2 a3) e (node leaf d r),
        delFixP_eq p hu hy hx hb, ?_, ?_⟩
      · refine hrtail (node leaf d r) ?_ (by simp [childAt]) _ ?_ (by simp [childAt])
        · refine unbalanced_false.mpr ⟨?_, ?_⟩ <;>
            · simp only [height_node, height_leaf] at *
              omega
        · refine unbalanced_false.mpr ⟨?_, ?_⟩ <;>
            · simp only [height_node, height_leaf] at *
              omega
      · simp only [height_node, height_leaf] at *
        omega
    | node b1 b2 b3 =>
      rcases Nat.lt_or_ge (height (node b1 b2 b3)) (height (node a1 a2 a3)) with
        hba | hba
      · -- left grandchild strictly higher: x = a, LeftLeft
        have hx : highestChild (node (node a1 a2 a3) e (node b1 b2 b3)) =
            some (node a1 a2 a3) := by
          simp only [highestChild]
          rw [if_neg (by simp), if_neg (by simp), if_neg (by simp), if_pos hba]
        have hb := balance_ll hu
        refine ⟨node (node a1 a2 a3) e (node (node b1 b2 b3) d r),
          delFixP_eq p hu hy hx hb, ?_, ?_⟩
        · refine hrtail (node (node b1 b2 b3) d r) ?_ (by simp [childAt]) _ ?_
            (by simp [childAt])
          · refine unbalanced_false.mpr ⟨?_, ?_⟩ <;>
              · simp only [height_node, height_leaf] at *
                omega
          · refine unbalanced_false.mpr ⟨?_, ?_⟩ <;>
              · simp only [height_node, height_leaf] at *
                omega
        · simp only [height_node, height_leaf] at *
          omega
      · -- tie or right grandchild higher: get_highest_child picks the right
        have hx : highestChild (node (node a1 a2 a3) e (node b1 b2 b3)) =
            some (node b1 b2 b3) := by
          simp only [highestChild]
          rw [if_neg (by simp), if_neg (by simp), if_neg (by simp),
            if_neg (by omega)]
        by_cases hab : (node a1 a2 a3 : Tree) = node b1 b2 b3
        · -- degenerate equal-subtree tie: the `y.left == x` identity test
          -- still fires, so the single LeftLeft rotation is applied
          obtain ⟨h1, h2, h3⟩ := Tree.node.inj hab
          subst h1
          subst h2
          subst h3
          have hb := balance_ll hu
          refine ⟨node (node a1 a2 a3) e (node (node a1 a2 a3) d r),
            delFixP_eq p hu hy hx hb, ?_, ?_⟩
          · refine hrtail (node (node a1 a2 a3) d r) ?_ (by simp [childAt]) _ ?_
              (by simp [childAt])
            · refine unbalanced_false.mpr ⟨?_, ?_⟩ <;>
                · simp only [height_node, height_leaf] at *
                  omega
            · refine unbalanced_false.mpr ⟨?_, ?_⟩ <;>
                · simp only [height_node, height_leaf] at *
                  omega
          · simp only [height_node, height_leaf] at *
            omega
        · -- genuine LeftRight (including the problematic equal-height tie)
          have hb := balance_lr hab hu
          obtain ⟨hAb1, hAb3, hbb1, hbb2⟩ := avl_node.mp hAb
          refine ⟨node (node (node a1 a2 a3) e b1) b2 (node b3 d r),
            delFixP_eq p hu hy hx hb, ?_, ?_⟩
          · refine hrtail (node b3 d r) ?_ (by simp [childAt]) _ ?_
              (by simp [childAt])
            · refine unbalanced_false.mpr ⟨?_, ?_⟩ <;>
                · simp only [height_node, height_leaf] at *
                  omega
            · refine unbalanced_false.mpr ⟨?_, ?_⟩ <;>
                · simp only [height_node, height_leaf] at *
                  omega
          · simp only [height_node, height_leaf] at *
            omega

/-- One fixing check of the delete walk, right-heavy case: mirror image of
`delFixP_fix_left_heavy`, with `r` the untouched everywhere-balanced subtree
and the deletion side on the left. -/
theorem delFixP_fix_right_heavy (l r : Tree) (d : Int) (p : List Side)
    (hAr : avl r = true) (hh : height r = height l + 2)
    (hp : p = [] ∨ ∃ q, p = Side.l :: q)
    (hpb : ∀ q, p = Side.l :: q → pathBalanced l q = true) :
    ∃ t2, delFixP (node l d r) p = some (t2, Side.l :: p) ∧
      pathBalanced t2 (Side.l :: p) = true ∧
      (height t2 = height r ∨ height t2 = height r + 1) := by
  have hltail : ∀ inner : Tree, unbalanced inner = false →
      childAt Side.l inner = some l →
      ∀ root : Tree, unbalanced root = false → childAt Side.l root = some inner →
      pathBalanced root (Side.l :: p) = true := by
    intro inner hiu hic root hru hrc
    refine pathBalanced_cons hru hrc ?_
    rcases hp with rfl | ⟨q, rfl⟩
    · exact pathBalanced_nil hiu
    · exact pathBalanced_cons hiu hic (hpb q rfl)
  cases r with
  | leaf => rw [show height leaf = 0 from rfl] at hh; omega
  | node c f g =>
  obtain ⟨hAc, hAg, hcg1, hcg2⟩ := avl_node.mp hAr
  have hu : unbalanced (node l d (node c f g)) = true :=
    unbalanced_true.mpr (Or.inr (by omega))
  have hy : highestChild (node l d (node c f g)) = some (node c f g) := by
    cases l with
    | leaf => simp [highestChild]
    | node ll ld lr =>
      simp only [highestChild]
      rw [if_neg (by simp), if_neg (by simp), if_neg (by simp), if_neg (by omega)]
  have hnel : l ≠ node c f g := ne_of_height_ne (by omega)
  cases c with
  | leaf =>
    cases g with
    | leaf => simp only [height_node, height_leaf] at hh; omega
    | node g1 g2 g3 =>
      -- the only grandchild of positive height is on the right: RightRight
      have hx : highestChild (node leaf f (node g1 g2 g3)) =
          some (node g1 g2 g3) := by
        simp [highestChild]
      have hb := balance_rr hnel hu
      refine ⟨node (node l d leaf) f (node g1 g2 g3),
        delFixP_eq p hu hy hx hb, ?_, ?_⟩
      · refine hltail (node l d leaf) ?_ (by simp [childAt]) _ ?_
          (by simp [childAt])
        · refine unbalanced_false.mpr ⟨?_, ?_⟩ <;>
            · simp only [height_node, height_leaf] at *
              omega
        · refine unbalanced_false.mpr ⟨?_, ?_⟩ <;>
            · simp only [height_node, height_leaf] at *
              omega
      · simp only [height_node, height_leaf] at *
        omega
  | node c1 c2 c3 =>
    cases g with
    | leaf =>
      -- the only grandchild of positive height is on the left: RightLeft
      have hx : highestChild (node (node c1 c2 c3) f leaf) =
          some (node c1 c2 c3) := by
        simp [highestChild]
      have hb := balance_rl hnel (by simp) hu
      obtain ⟨hAc1, hAc3, hcc1, hcc2⟩ := avl_node.mp hAc
      refine ⟨node (node l d c1) c2 (node c3 f leaf),
        delFixP_eq p hu hy hx hb, ?_, ?_⟩
      · refine hltail (node l d c1) ?_ (by simp [childAt]) _ ?_
          (by simp [childAt])
        · refine unbalanced_false.mpr ⟨?_, ?_⟩ <;>
            · simp only [height_node, height_leaf] at *
              omega
        · refine unbalanced_false.mpr ⟨?_, ?_⟩ <;>
            · simp only [height_node, height_leaf] at *
              omega
      · simp only [height_node, height_leaf] at *
        omega
    | node g1 g2 g3 =>
      rcases Nat.lt_or_ge (height (node g1 g2 g3)) (height (node c1 c2 c3)) with
        hgc | hgc
      · -- inner grandchild strictly higher: x = c, RightLeft
        have hx : highestChild (node (node c1 c2 c3) f (node g1 g2 g3)) =
            some (node c1 c2 c3) := by
          simp only [highestChild]
          rw [if_neg (by simp), if_neg (by simp), if_neg (by simp), if_pos hgc]
        have hb := balance_rl hnel (ne_of_height_ne (by omega)) hu
        obtain ⟨hAc1, hAc3, hcc1, hcc2⟩ := avl_node.mp hAc
        refine ⟨node (node l d c1) c2 (node c3 f (node g1 g2 g3)),
          delFixP_eq p hu hy hx hb, ?_, ?_⟩
        · refine hltail (node l d c1) ?_ (by simp [childAt]) _ ?_
            (by simp [childAt])
          · refine unbalanced_false.mpr ⟨?_, ?_⟩ <;>
              · simp only [height_node, height_leaf] at *
                omega
          · refine unbalanced_false.mpr ⟨?_, ?_⟩ <;>
              · simp only [height_node, height_leaf] at *
                omega
        · simp only [height_node, height_leaf] at *
          omega
      · -- tie or outer grandchild higher: x = g, RightRight (here the
        -- rightward tie-break selects the single rotation, which is correct)
        have hx : highestChild (node (node c1 c2 c3) f (node g1 g2 g3)) =
            some (node g1 g2 g3) := by
          simp only [highestChild]
          rw [if_neg (by simp), if_neg (by simp), if_neg (by simp),
            if_neg (by omega)]
        have hb := balance_rr hnel hu
        refine ⟨node (node l d (node c1 c2 c3)) f (node g1 g2 g3),
          delFixP_eq p hu hy hx hb, ?_, ?_⟩
        · refine hltail (node l d (node c1 c2 c3)) ?_ (by simp [childAt]) _ ?_
            (by simp [childAt])
          · refine unbalanced_false.mpr ⟨?_, ?_⟩ <;>
              · simp only [height_node, height_leaf] at *
                omega
          · refine unbalanced_false.mpr ⟨?_, ?_⟩ <;>
              · simp only [height_node, height_leaf] at *
                omega
        · simp only [height_node, height_leaf] at *
          omega

/-- Processing one ancestor of the delete walk whose deletion side is the
left child: the child `l2` is the processed subtree (its pre-delete height
was `hL`, it lost at most one level, and the walk path `p1` into it is
balanced), the right child `r` is untouched and everywhere balanced.
Whether the check skips the ancestor or restructures it, every node on the
resulting path is balanced and the subtree loses at most one level relative
to its pre-delete height `1 + max hL (height r)`. -/
theorem delFixP_step_left (hL : Nat) (l2 r : Tree) (d : Int) (p1 : List Side)
    (hAr : avl r = true)
    (hd1 : height l2 = hL ∨ height l2 + 1 = hL)
    (hb1 : hL ≤ height r + 1) (hb2 : height r ≤ hL + 1)
    (hp : p1 = [] ∨ ∃ q, p1 = Side.l :: q)
    (hpb : ∀ q, p1 = Side.l :: q → pathBalanced l2 q = true) :
    ∃ t3 p3, delFixP (node l2 d r) p1 = some (t3, p3) ∧
      pathBalanced t3 p3 = true ∧
      (height t3 = 1 + max hL (height r) ∨
        height t3 + 1 = 1 + max hL (height r)) := by
  by_cases hu : unbalanced (node l2 d r) = true
  · have hh : height r = height l2 + 2 := by
      rcases unbalanced_true.mp hu with hc | hc <;> omega
    obtain ⟨t3, heq, hpb3, hht⟩ :=
      delFixP_fix_right_heavy l2 r d p1 hAr hh hp hpb
    exact ⟨t3, Side.l :: p1, heq, hpb3, by omega⟩
  · rw [Bool.not_eq_true] at hu
    refine ⟨node l2 d r, p1, delFixP_skip p1 hu, ?_, ?_⟩
    · rcases hp with rfl | ⟨q, rfl⟩
      · exact pathBalanced_nil hu
      · exact pathBalanced_cons hu (by simp [childAt]) (hpb q rfl)
    · obtain ⟨h1, h2⟩ := unbalanced_false.mp hu
      simp only [height_node]
      omega

/-- Mirror of `delFixP_step_left`: the deletion side is the right child. -/
theorem delFixP_step_right (hR : Nat) (l r2 : Tree) (d : Int) (p1 : List Side)
    (hAl : avl l = true)
    (hd1 : height r2 = hR ∨ height r2 + 1 = hR)
    (hb1 : height l ≤ hR + 1) (hb2 : hR ≤ height l + 1)
    (hp : p1 = [] ∨ ∃ q, p1 = Side.r :: q)
    (hpb : ∀ q, p1 = Side.r :: q → pathBalanced r2 q = true) :
    ∃ t3 p3, delFixP (node l d r2) p1 = some (t3, p3) ∧
      pathBalanced t3 p3 = true ∧
      (height t3 = 1 + max (height l) hR ∨
        height t3 + 1 = 1 + max (height l) hR) := by
  by_cases hu : unbalanced (node l d r2) = true
  · have hh : height l = height r2 + 2 := by
      rcases unbalanced_true.mp hu with hc | hc <;> omega
    obtain ⟨t3, heq, hpb3, hht⟩ :=
      delFixP_fix_left_heavy l r2 d p1 hAl hh hp hpb
    exact ⟨t3, Side.r :: p1, heq, hpb3, by omega⟩
  · rw [Bool.not_eq_true] at hu
    refine ⟨node l d r2, p1, delFixP_skip p1 hu, ?_, ?_⟩
    · rcases hp with rfl | ⟨q, rfl⟩
      · exact pathBalanced_nil hu
      · exact pathBalanced_cons hu (by simp [childAt]) (hpb q rfl)
    · obtain ⟨h1, h2⟩ := unbalanced_false.mp hu
      simp only [height_node]
      omega

/-- The successor-removal walk `delMin` on an everywhere-balanced subtree:
the subtree loses at most one level, and every node on the returned path to
the removal parent is balanced. -/
theorem delMin_post : ∀ t : Tree, avl t = true → ∀ m t2 po,
    delMin t = some (m, t2, po) →
    (height t2 = height t ∨ height t2 + 1 = height t) ∧
    (∀ p, po = some p → pathBalanced t2 p = true) := by
  intro t
  induction t with
  | leaf =>
    intro _ m t2 po h
    cases h
  | node l d r ihl ihr =>
    intro hA m t2 po hdel
    obtain ⟨hAl, hAr, hb1, hb2⟩ := avl_node.mp hA
    cases l with
    | leaf =>
      simp only [delMin, Option.some.injEq, Prod.mk.injEq] at hdel
      obtain ⟨h1, h2, h3⟩ := hdel
      subst h2
      subst h3
      constructor
      · right
        simp only [height_node, height_leaf]
        omega
      · intro p hp
        cases hp
    | node ll ld lr =>
      simp only [delMin] at hdel
      rcases hmin : delMin (node ll ld lr) with _ | ⟨m2, l2, po2⟩ <;>
        rw [hmin] at hdel <;> dsimp only at hdel
      · cases hdel
      obtain ⟨hd1, hd2⟩ := ihl hAl m2 l2 po2 hmin
      rcases po2 with _ | q0 <;> dsimp only at hdel
      · obtain ⟨t3, p3, heq, hpb3, hht⟩ :=
          delFixP_step_left (height (node ll ld lr)) l2 r d [] hAr hd1 hb1 hb2
            (Or.inl rfl) (fun q hq => by cases hq)
        rw [heq] at hdel
        dsimp only at hdel
        simp only [Option.some.injEq, Prod.mk.injEq] at hdel
        obtain ⟨h1, h2, h3⟩ := hdel
        subst h2
        subst h3
        constructor
        · rw [height_node]
          omega
        · intro p hp
          injection hp with hp2
          subst hp2
          exact hpb3
      · obtain ⟨t3, p3, heq, hpb3, hht⟩ :=
          delFixP_step_left (height (node ll ld lr)) l2 r d (Side.l :: q0) hAr
            hd1 hb1 hb2 (Or.inr ⟨q0, rfl⟩)
            (fun q hq => (List.cons.inj hq).2 ▸ hd2 q0 rfl)
        rw [heq] at hdel
        dsimp only at hdel
        simp only [Option.some.injEq, Prod.mk.injEq] at hdel
        obtain ⟨h1, h2, h3⟩ := hdel
        subst h2
        subst h3
        constructor
        · rw [height_node]
          omega
        · intro p hp
          injection hp with hp2
          subst hp2
          exact hpb3

/-- The delete with its (spec-modelled) rebalance walk, on an
everywhere-balanced tree: the tree loses at most one level, and every node
on the returned path — the ancestors of the deletion point, from the root
down to the parent of the physically removed node — is balanced. -/
theorem delRec_post : ∀ t : Tree, avl t = true → ∀ v isRoot t2 po,
    delRec isRoot t v = some (t2, po) →
    (height t2 = height t ∨ height t2 + 1 = height t) ∧
    (po = none → t2 = leaf) ∧
    (∀ p, po = some p → pathBalanced t2 p = true) := by
  intro t
  induction t with
  | leaf =>
    intro _ v isRoot t2 po h
    cases h
  | node l d r ihl ihr =>
    intro hA v isRoot t2 po hdel
    obtain ⟨hAl, hAr, hb1, hb2⟩ := avl_node.mp hA
    simp only [delRec] at hdel
    by_cases hv : v < d
    · rw [if_pos hv] at hdel
      rcases hrec : delRec false l v with _ | ⟨l2, po2⟩ <;> rw [hrec] at hdel <;>
        dsimp only at hdel
      · cases hdel
      obtain ⟨hd1, hdn, hd2⟩ := ihl hAl v false l2 po2 hrec
      rcases po2 with _ | q0 <;> dsimp only at hdel
      · obtain ⟨t3, p3, heq, hpb3, hht⟩ :=
          delFixP_step_left (height l) l2 r d [] hAr hd1 hb1 hb2
            (Or.inl rfl) (fun q hq => by cases hq)
        rw [heq] at hdel
        dsimp only at hdel
        simp only [Option.some.injEq, Prod.mk.injEq] at hdel
        obtain ⟨h1, h2⟩ := hdel
        subst h1
        subst h2
        refine ⟨?_, ?_, ?_⟩
        · rw [height_node]
          omega
        · intro hc
          cases hc
        · intro p hp
          injection hp with hp2
          subst hp2
          exact hpb3
      · obtain ⟨t3, p3, heq, hpb3, hht⟩ :=
          delFixP_step_left (height l) l2 r d (Side.l :: q0) hAr hd1 hb1 hb2
            (Or.inr ⟨q0, rfl⟩) (fun q hq => (List.cons.inj hq).2 ▸ hd2 q0 rfl)
        rw [heq] at hdel
        dsimp only at hdel
        simp only [Option.some.injEq, Prod.mk.injEq] at hdel
        obtain ⟨h1, h2⟩ := hdel
        subst h1
        subst h2
        refine ⟨?_, ?_, ?_⟩
        · rw [height_node]
          omega
        · intro hc
          cases hc
        · intro p hp
          injection hp with hp2
          subst hp2
          exact hpb3
    · rw [if_neg hv] at hdel
      by_cases hv2 : d < v
      · rw [if_pos hv2] at hdel
        rcases hrec : delRec false r v with _ | ⟨r2, po2⟩ <;> rw [hrec] at hdel <;>
          dsimp only at hdel
        · cases hdel
        obtain ⟨hd1, hdn, hd2⟩ := ihr hAr v false r2 po2 hrec
        rcases po2 with _ | q0 <;> dsimp only at hdel
        · obtain ⟨t3, p3, heq, hpb3, hht⟩ :=
            delFixP_step_right (height r) l r2 d [] hAl hd1 hb1 hb2
              (Or.inl rfl) (fun q hq => by cases hq)
          rw [heq] at hdel
          dsimp only at hdel
          simp only [Option.some.injEq, Prod.mk.injEq] at hdel
          obtain ⟨h1, h2⟩ := hdel
          subst h1
          subst h2
          refine ⟨?_, ?_, ?_⟩
          · rw [height_node]
            omega
          · intro hc
            cases hc
          · intro p hp
            injection hp with hp2
            subst hp2
            exact hpb3
        · obtain ⟨t3, p3, heq, hpb3, hht⟩ :=
            delFixP_step_right (height r) l r2 d (Side.r :: q0) hAl hd1 hb1 hb2
              (Or.inr ⟨q0, rfl⟩) (fun q hq => (List.cons.inj hq).2 ▸ hd2 q0 rfl)
          rw [heq] at hdel
          dsimp only at hdel
          simp only [Option.some.injEq, Prod.mk.injEq] at hdel
          obtain ⟨h1, h2⟩ := hdel
          subst h1
          subst h2
          refine ⟨?_, ?_, ?_⟩
          · rw [height_node]
            omega
          · intro hc
            cases hc
          · intro p hp
            injection hp with hp2
            subst hp2
            exact hpb3
      · rw [if_neg hv2] at hdel
        cases l with
        | leaf =>
          cases r with
          | leaf =>
            dsimp only at hdel
            cases isRoot
            · rw [if_neg (by simp)] at hdel
              simp only [Option.some.injEq, Prod.mk.injEq] at hdel
              obtain ⟨h1, h2⟩ := hdel
              subst h1
              subst h2
              refine ⟨?_, fun _ => rfl, ?_⟩
              · right
                simp [height_node, height_leaf]
              · intro p hp
                cases hp
            · rw [if_pos rfl] at hdel
              simp only [Option.some.injEq, Prod.mk.injEq] at hdel
              obtain ⟨h1, h2⟩ := hdel
              subst h1
              subst h2
              refine ⟨Or.inl rfl, ?_, ?_⟩
              · intro hc
                cases hc
              · intro p hp
                injection hp with hp2
                subst hp2
                exact pathBalanced_nil (by rfl)
          | node cl cd cr =>
            dsimp only at hdel
            have hu := avl_not_unbalanced hAr
            rw [delFixP_skip ([] : List Side) hu] at hdel
            dsimp only at hdel
            simp only [Option.some.injEq, Prod.mk.injEq] at hdel
            obtain ⟨h1, h2⟩ := hdel
            subst h1
            subst h2
            refine ⟨?_, ?_, ?_⟩
            · right
              simp only [height_node, height_leaf]
              omega
            · intro hc
              cases hc
            · intro p hp
              injection hp with hp2
              subst hp2
              exact pathBalanced_nil hu
        | node al ad ar2 =>
          cases r with
          | leaf =>
            dsimp only at hdel
            have hu := avl_not_unbalanced hAl
            rw [delFixP_skip ([] : List Side) hu] at hdel
            dsimp only at hdel
            simp only [Option.some.injEq, Prod.mk.injEq] at hdel
            obtain ⟨h1, h2⟩ := hdel
            subst h1
            subst h2
            refine ⟨?_, ?_, ?_⟩
            · right
              simp only [height_node, height_leaf]
              omega
            · intro hc
              cases hc
            · intro p hp
              injection hp with hp2
              subst hp2
              exact pathBalanced_nil hu
          | node bl bd br =>
            dsimp only at hdel
            rcases hmin : delMin (node bl bd br) with _ | ⟨m2, r2, po2⟩ <;>
              rw [hmin] at hdel <;> dsimp only at hdel
            · cases hdel
            obtain ⟨hd1, hd2⟩ := delMin_post (node bl bd br) hAr m2 r2 po2 hmin
            rcases po2 with _ | q0 <;> dsimp only at hdel
            · obtain ⟨t3, p3, heq, hpb3, hht⟩ :=
                delFixP_step_right (height (node bl bd br)) (node al ad ar2) r2
                  m2 [] hAl hd1 hb1 hb2 (Or.inl rfl) (fun q hq => by cases hq)
              rw [heq] at hdel
              dsimp only at hdel
              simp only [Option.some.injEq, Prod.mk.injEq] at hdel
              obtain ⟨h1, h2⟩ := hdel
              subst h1
              subst h2
              refine ⟨?_, ?_, ?_⟩
              · rw [height_node]
                omega
              · intro hc
                cases hc
              · intro p hp
                injection hp with hp2
                subst hp2
                exact hpb3
            · obtain ⟨t3, p3, heq, hpb3, hht⟩ :=
                delFixP_step_right (height (node bl bd br)) (node al ad ar2) r2
                  m2 (Side.r :: q0) hAl hd1 hb1 hb2 (Or.inr ⟨q0, rfl⟩)
                  (fun q hq => (List.cons.inj hq).2 ▸ hd2 q0 rfl)
              rw [heq] at hdel
              dsimp only at hdel
              simp only [Option.some.injEq, Prod.mk.injEq] at hdel
              obtain ⟨h1, h2⟩ := hdel
              subst h1
              subst h2
              refine ⟨?_, ?_, ?_⟩
              · rw [height_node]
                omega
              · intro hc
                cases hc
              · intro p hp
                injection hp with hp2
                subst hp2
                exact hpb3

/-- Claim C4: the rebalance-after-delete walk is not limited to one fix —
`delFixP` is applied at every ancestor from the parent of the physically
removed node up to the root (see `delRec`) — and when the walk completes, on
a tree satisfying the balance invariant, no ancestor of the deletion point
is unbalanced: every node on the returned path from the root to the parent
of the physically removed node satisfies the balance condition. -/
theorem delete_walk_rebalances_ancestors (t : Tree) (v : Int) (t2 : Tree)
    (p : List Side) (h : avl t = true) (hd : delAP t v = some (t2, p)) :
    pathBalanced t2 p = true := by
  simp only [delAP] at hd
  rcases hrec : delRec true t v with _ | ⟨t3, po⟩ <;> rw [hrec] at hd <;>
    dsimp only at hd
  · cases hd
  obtain ⟨_, hdn, hd2⟩ := delRec_post t h v true t3 po hrec
  simp only [Option.some.injEq, Prod.mk.injEq] at hd
  obtain ⟨h1, h2⟩ := hd
  subst h1
  rcases po with _ | p0
  · simp only [Option.getD] at h2
    subst h2
    rw [hdn rfl]
    rfl
  · simp only [Option.getD] at h2
    subst h2
    exact hd2 p0 rfl

/-- Witness for C4: deleting 20 from the 9-node tree of the cascading
scenario.  Every ancestor of the deletion point — the root 8, its right
child 10, and the removal parent 15 — is balanced after the walk, even
though the tree as a whole is not (`avl_broken_after_delete`). -/
theorem delete_walk_rebalances_ancestors_w :
    pathBalanced
      (node (node (node (node leaf 2 leaf) 3 (node leaf 4 leaf)) 5 leaf) 8
        (node (node leaf 9 leaf) 10 (node leaf 15 leaf)))
      [Side.r, Side.r] = true :=
  delete_walk_rebalances_ancestors (runInserts [10, 5, 15, 3, 8, 20, 2, 4, 9])
    20
    (node (node (node (node leaf 2 leaf) 3 (node leaf 4 leaf)) 5 leaf) 8
      (node (node leaf 9 leaf) 10 (node leaf 15 leaf)))
    [Side.r, Side.r] rfl rfl

end AvlSpec
